import Mathlib

/-!
Verification of the smart-clip engine (`smartclip_engine.py`).

The Python source is shallowly embedded: Python floats become exact
rationals (`ℚ`), Python ints become `ℤ`/`Nat`, Python `int()` truncation
and `//` floor division become `truncQ` and `Int.fdiv`, and the inline
speaker-clustering / crop-geometry / caption-timeline code becomes the
executable definitions below.
-/

/-- One identified speaker, from the `Speaker` dataclass (the
`face_regions` field is never read by the code under verification and is
omitted). -/
structure Speaker where
  id : Nat
  x_position : ℚ
deriving DecidableEq, Repr

/-- Arithmetic mean of a list of rationals, as computed by
`sum(xs) / len(xs)` in the source. -/
def arithMean (xs : List ℚ) : ℚ := xs.sum / (xs.length : ℚ)

/-- Speaker clustering from `SmartClipEngine.process` (lines 614-629):
partition the observed face centers at `0.5`; each non-empty side yields
one speaker positioned at the mean of that side.  An empty observation
list yields no speakers (the `if face_detections:` guard). -/
def resolveSpeakers (obs : List ℚ) : List Speaker :=
  let left_faces := obs.filter (fun x => x < 1/2)
  let right_faces := obs.filter (fun x => 1/2 ≤ x)
  (if left_faces.isEmpty then [] else [⟨0, arithMean left_faces⟩]) ++
    (if right_faces.isEmpty then [] else [⟨1, arithMean right_faces⟩])

/-- `num_speakers = len(speakers)` from the source. -/
def speakerCount (obs : List ℚ) : Nat := (resolveSpeakers obs).length

/-- `layout_mode = 'split' if num_speakers >= 2 else 'single'`. -/
def layoutMode (obs : List ℚ) : String :=
  if 2 ≤ speakerCount obs then "split" else "single"

theorem filter_ne_nil_of_mem {α} {p : α → Prop} [DecidablePred p]
    {a : α} {l : List α} (ha : a ∈ l) (hpa : p a) :
    l.filter (fun x => decide (p x)) ≠ [] :=
  List.ne_nil_of_mem (List.mem_filter.mpr ⟨ha, by simpa using hpa⟩)

/-- C1: with observations on both sides of `0.5` the resolver reports a
split layout with two speakers whose positions are exactly the
arithmetic means of the left and right partitions. -/
theorem resolver_split_exact (obs : List ℚ) (a b : ℚ)
    (ha : a ∈ obs) (ha2 : a < 1/2) (hb : b ∈ obs) (hb2 : 1/2 ≤ b) :
    layoutMode obs = "split" ∧ speakerCount obs = 2 ∧
      (resolveSpeakers obs).map Speaker.x_position =
        [arithMean (obs.filter (fun x => x < 1/2)),
         arithMean (obs.filter (fun x => 1/2 ≤ x))] := by
  have hl : obs.filter (fun x => decide (x < 1/2)) ≠ [] :=
    filter_ne_nil_of_mem ha ha2
  have hr : obs.filter (fun x => decide (1/2 ≤ x)) ≠ [] :=
    filter_ne_nil_of_mem hb hb2
  have hres : resolveSpeakers obs =
      [⟨0, arithMean (obs.filter (fun x => x < 1/2))⟩,
       ⟨1, arithMean (obs.filter (fun x => 1/2 ≤ x))⟩] := by
    simp only [resolveSpeakers]
    rw [if_neg (by simpa [List.isEmpty_iff] using hl),
      if_neg (by simpa [List.isEmpty_iff] using hr)]
    rfl
  refine ⟨?_, ?_, ?_⟩
  · simp [layoutMode, speakerCount, hres]
  · simp [speakerCount, hres]
  · simp [hres]

theorem resolver_split_exact_witness :
    ((1:ℚ)/4 ∈ [(1:ℚ)/4, 3/4] ∧ (1:ℚ)/4 < 1/2 ∧
      (3:ℚ)/4 ∈ [(1:ℚ)/4, 3/4] ∧ (1:ℚ)/2 ≤ 3/4) ∧
    (layoutMode [(1:ℚ)/4, 3/4] = "split" ∧
      speakerCount [(1:ℚ)/4, 3/4] = 2 ∧
      (resolveSpeakers [(1:ℚ)/4, 3/4]).map Speaker.x_position =
        [arithMean (([(1:ℚ)/4, 3/4]).filter (fun x => x < 1/2)),
         arithMean (([(1:ℚ)/4, 3/4]).filter (fun x => 1/2 ≤ x))]) :=
  ⟨by refine ⟨by simp, by norm_num, by simp, by norm_num⟩,
    resolver_split_exact [(1:ℚ)/4, 3/4] (1/4) (3/4)
      (by simp) (by norm_num) (by simp) (by norm_num)⟩

/-- C2: if every observation lies on one side of `0.5` the resolver
reports a single layout with one speaker, and the empty observation list
gives a single layout with zero speakers (the empty-detection fallback:
the resolver is a total function, it never fails). -/
theorem resolver_single_fallback (obs : List ℚ)
    (h : (∀ x ∈ obs, x < 1/2) ∨ (∀ x ∈ obs, 1/2 ≤ x)) :
    layoutMode obs = "single" ∧
      speakerCount obs = (if obs.isEmpty then 0 else 1) := by
  have hcount : speakerCount obs = (if obs.isEmpty then 0 else 1) := by
    rcases h with h | h
    · have hr : obs.filter (fun x => decide (1/2 ≤ x)) = [] := by
        simp only [List.filter_eq_nil_iff]
        intro x hx
        simpa using not_le.mpr (h x hx)
      have hlf : obs.filter (fun x => decide (x < 1/2)) = obs := by
        simp only [List.filter_eq_self]
        intro x hx
        simpa using h x hx
      simp only [speakerCount, resolveSpeakers, hr, hlf]
      cases obs <;> simp
    · have hlf : obs.filter (fun x => decide (x < 1/2)) = [] := by
        simp only [List.filter_eq_nil_iff]
        intro x hx
        simpa using not_lt.mpr (h x hx)
      have hr : obs.filter (fun x => decide (1/2 ≤ x)) = obs := by
        simp only [List.filter_eq_self]
        intro x hx
        simpa using h x hx
      simp only [speakerCount, resolveSpeakers, hlf, hr]
      cases obs <;> simp
  refine ⟨?_, hcount⟩
  simp only [layoutMode, hcount]
  cases obs <;> simp

theorem resolver_single_fallback_witness :
    ((∀ x ∈ [(1:ℚ)/4, 1/3], x < 1/2) ∨ (∀ x ∈ [(1:ℚ)/4, 1/3], 1/2 ≤ x)) ∧
    (layoutMode [(1:ℚ)/4, 1/3] = "single" ∧
      speakerCount [(1:ℚ)/4, 1/3] = (if ([(1:ℚ)/4, 1/3]).isEmpty then 0 else 1)) :=
  ⟨Or.inl (by intro x hx; fin_cases hx <;> norm_num),
    resolver_single_fallback [(1:ℚ)/4, 1/3]
      (Or.inl (by intro x hx; fin_cases hx <;> norm_num))⟩

/-- Python `int()` applied to a float: truncation toward zero. -/
def truncQ (q : ℚ) : ℤ := if 0 ≤ q then ⌊q⌋ else ⌈q⌉

/-- An axis-aligned crop rectangle. -/
structure CropRect where
  x : ℤ
  y : ℤ
  w : ℤ
  h : ℤ
deriving DecidableEq, Repr

/-- `0 ≤ x ≤ source_w - w` and `0 ≤ y ≤ source_h - h`. -/
def inBounds (source_w source_h : ℤ) (c : CropRect) : Prop :=
  0 ≤ c.x ∧ c.x ≤ source_w - c.w ∧ 0 ≤ c.y ∧ c.y ≤ source_h - c.h

/-- The crop computed by `SmartClipEngine._single_speaker_filter`
(lines 814-844): the largest centered crop with the 1080:1920 target
aspect ratio.  Python `//` is `Int.fdiv`. -/
def singleSpeakerCrop (width height : ℤ) : CropRect :=
  let target_w : ℚ := 1080
  let target_h : ℚ := 1920
  let source_aspect : ℚ := (width : ℚ) / (height : ℚ)
  let target_aspect : ℚ := target_w / target_h
  if target_aspect < source_aspect then
    let crop_h := height
    let crop_w := truncQ ((height : ℚ) * target_aspect)
    let crop_x := Int.fdiv (width - crop_w) 2
    ⟨crop_x, 0, crop_w, crop_h⟩
  else
    let crop_w := width
    let crop_h := truncQ ((width : ℚ) / target_aspect)
    let crop_y := Int.fdiv (height - crop_h) 2
    ⟨0, crop_y, crop_w, crop_h⟩

/-- The two split-screen crops from `SmartClipEngine.process`
(lines 652-674), given the two resolved speaker positions `s0`, `s1`:
half-width full-height crops, the speaker center clamped into frame. -/
def splitCrops (width height : ℤ) (s0 s1 : ℚ) : CropRect × CropRect :=
  let left_x := if s0 < s1 then s0 else s1
  let right_x := if s0 < s1 then s1 else s0
  let crop_w := Int.fdiv width 2
  let crop_h := height
  let left_crop_x := truncQ (left_x * (width : ℚ) - ((Int.fdiv crop_w 2 : ℤ) : ℚ))
  let right_crop_x := truncQ (right_x * (width : ℚ) - ((Int.fdiv crop_w 2 : ℤ) : ℚ))
  let left_crop_x := max 0 (min left_crop_x (width - crop_w))
  let right_crop_x := max 0 (min right_crop_x (width - crop_w))
  (⟨left_crop_x, 0, crop_w, crop_h⟩, ⟨right_crop_x, 0, crop_w, crop_h⟩)

/-- The claim's split-crop x formula: the speaker's `x_position * source_w`
placed at the crop's horizontal center (with the code's integer
rounding), clamped to `[0, source_w - crop_w]`. -/
def clampedCenterX (width crop_w : ℤ) (xpos : ℚ) : ℤ :=
  max 0 (min (truncQ (xpos * (width : ℚ) - ((Int.fdiv crop_w 2 : ℤ) : ℚ))) (width - crop_w))

theorem truncQ_of_nonneg {q : ℚ} (h : 0 ≤ q) : truncQ q = ⌊q⌋ := if_pos h

theorem fdiv_half_bounds {n : ℤ} (hn : 0 ≤ n) :
    0 ≤ Int.fdiv n 2 ∧ Int.fdiv n 2 ≤ n := by
  rw [Int.fdiv_eq_ediv _ (by norm_num)]
  exact ⟨Int.ediv_nonneg hn (by norm_num), Int.ediv_le_self 2 hn⟩

theorem clampedCenterX_bounds (width crop_w : ℤ) (xpos : ℚ)
    (h : crop_w ≤ width) :
    0 ≤ clampedCenterX width crop_w xpos ∧
      clampedCenterX width crop_w xpos ≤ width - crop_w := by
  constructor
  · exact le_max_left 0 _
  · exact max_le (by omega) (min_le_right _ _)

/-- C3: every crop rectangle the planner produces stays inside the
source frame: the centered aspect-fit crop in single mode, and both
half-width crops in split mode for any speaker positions in `[0, 1]`,
whenever the source is at least `2*1080` wide and `2*1920` tall. -/
theorem crop_rects_in_bounds (width height : ℤ)
    (hw : 2 * 1080 ≤ width) (hh : 2 * 1920 ≤ height) (s0 s1 : ℚ)
    (hs0 : 0 ≤ s0 ∧ s0 ≤ 1) (hs1 : 0 ≤ s1 ∧ s1 ≤ 1) :
    inBounds width height (singleSpeakerCrop width height) ∧
      inBounds width height (splitCrops width height s0 s1).1 ∧
      inBounds width height (splitCrops width height s0 s1).2 := by
  have hw0 : (0 : ℤ) < width := by omega
  have hh0 : (0 : ℤ) < height := by omega
  have hhq : (0 : ℚ) < (height : ℚ) := by exact_mod_cast hh0
  have hwq : (0 : ℚ) < (width : ℚ) := by exact_mod_cast hw0
  refine ⟨?_, ?_, ?_⟩
  · simp only [singleSpeakerCrop]
    split
    · rename_i hcond
      -- wide source: crop_w = trunc (height * 1080/1920), full height
      simp only [inBounds]
      have hnn : (0 : ℚ) ≤ (height : ℚ) * ((1080 : ℚ) / 1920) := by positivity
      rw [truncQ_of_nonneg hnn]
      have hcw0 : (0 : ℤ) ≤ ⌊(height : ℚ) * ((1080 : ℚ) / 1920)⌋ :=
        Int.le_floor.mpr (by exact_mod_cast hnn)
      have hlt : (height : ℚ) * ((1080 : ℚ) / 1920) < (width : ℚ) := by
        have := (lt_div_iff₀ hhq).mp hcond
        linarith
      have hcw : ⌊(height : ℚ) * ((1080 : ℚ) / 1920)⌋ < width := by
        exact_mod_cast Int.floor_lt.mpr (by exact_mod_cast hlt)
      have hfd := fdiv_half_bounds (n := width - ⌊(height : ℚ) * ((1080 : ℚ) / 1920)⌋)
        (by omega)
      exact ⟨hfd.1, by omega, le_refl 0, by omega⟩
    · rename_i hcond
      -- tall source: crop_h = trunc (width / (1080/1920)), full width
      simp only [inBounds]
      have hle : (width : ℚ) / (height : ℚ) ≤ (1080 : ℚ) / 1920 := not_lt.mp hcond
      have hnn : (0 : ℚ) ≤ (width : ℚ) / ((1080 : ℚ) / 1920) := by positivity
      rw [truncQ_of_nonneg hnn]
      have hch0 : (0 : ℤ) ≤ ⌊(width : ℚ) / ((1080 : ℚ) / 1920)⌋ :=
        Int.le_floor.mpr (by exact_mod_cast hnn)
      have hwle : (width : ℚ) ≤ (height : ℚ) * ((1080 : ℚ) / 1920) := by
        have := (div_le_iff₀ hhq).mp hle
        linarith
      have hdivle : (width : ℚ) / ((1080 : ℚ) / 1920) ≤ (height : ℚ) := by
        rw [div_le_iff₀ (by norm_num : (0:ℚ) < (1080 : ℚ) / 1920)]
        linarith
      have hch : ⌊(width : ℚ) / ((1080 : ℚ) / 1920)⌋ ≤ height := by
        have h1 : ((⌊(width : ℚ) / ((1080 : ℚ) / 1920)⌋ : ℚ)) ≤ (height : ℚ) :=
          le_trans (Int.floor_le _) hdivle
        exact_mod_cast h1
      have hfd := fdiv_half_bounds (n := height - ⌊(width : ℚ) / ((1080 : ℚ) / 1920)⌋)
        (by omega)
      exact ⟨le_refl 0, by omega, hfd.1, by omega⟩
  · have hcw := fdiv_half_bounds (n := width) (le_of_lt hw0)
    simp only [splitCrops, inBounds]
    refine ⟨le_max_left 0 _, max_le (by omega) (min_le_right _ _), le_refl 0, by omega⟩
  · have hcw := fdiv_half_bounds (n := width) (le_of_lt hw0)
    simp only [splitCrops, inBounds]
    refine ⟨le_max_left 0 _, max_le (by omega) (min_le_right _ _), le_refl 0, by omega⟩

theorem crop_rects_in_bounds_witness :
    ((2 : ℤ) * 1080 ≤ 2160 ∧ (2 : ℤ) * 1920 ≤ 3840 ∧
      ((0:ℚ) ≤ 1/4 ∧ (1:ℚ)/4 ≤ 1) ∧ ((0:ℚ) ≤ 3/4 ∧ (3:ℚ)/4 ≤ 1)) ∧
    (inBounds 2160 3840 (singleSpeakerCrop 2160 3840) ∧
      inBounds 2160 3840 (splitCrops 2160 3840 (1/4) (3/4)).1 ∧
      inBounds 2160 3840 (splitCrops 2160 3840 (1/4) (3/4)).2) :=
  ⟨⟨by norm_num, by norm_num, ⟨by norm_num, by norm_num⟩, ⟨by norm_num, by norm_num⟩⟩,
    crop_rects_in_bounds 2160 3840 (by norm_num) (by norm_num) (1/4) (3/4)
      ⟨by norm_num, by norm_num⟩ ⟨by norm_num, by norm_num⟩⟩

/-- C4: in split mode both crops are half the source width and full
source height, the first crop belongs to the smaller (leftmost) speaker
position and the second to the larger, and each crop's x coordinate is
the speaker's horizontal center clamped to `[0, source_w - crop_w]`. -/
theorem split_crop_geometry (width height : ℤ) (s0 s1 : ℚ)
    (hw : 0 ≤ width) :
    ((splitCrops width height s0 s1).1.w = Int.fdiv width 2 ∧
      (splitCrops width height s0 s1).1.h = height ∧
      (splitCrops width height s0 s1).2.w = Int.fdiv width 2 ∧
      (splitCrops width height s0 s1).2.h = height) ∧
    ((splitCrops width height s0 s1).1.x =
        clampedCenterX width (Int.fdiv width 2) (min s0 s1) ∧
      (splitCrops width height s0 s1).2.x =
        clampedCenterX width (Int.fdiv width 2) (max s0 s1)) ∧
    (0 ≤ (splitCrops width height s0 s1).1.x ∧
      (splitCrops width height s0 s1).1.x ≤ width - Int.fdiv width 2 ∧
      0 ≤ (splitCrops width height s0 s1).2.x ∧
      (splitCrops width height s0 s1).2.x ≤ width - Int.fdiv width 2) := by
  have hcw := fdiv_half_bounds (n := width) hw
  have hxl := clampedCenterX_bounds width (Int.fdiv width 2) (min s0 s1) hcw.2
  have hxr := clampedCenterX_bounds width (Int.fdiv width 2) (max s0 s1) hcw.2
  rcases lt_or_le s0 s1 with hlt | hle
  · have hmin : min s0 s1 = s0 := min_eq_left (le_of_lt hlt)
    have hmax : max s0 s1 = s1 := max_eq_right (le_of_lt hlt)
    have hx1 : (splitCrops width height s0 s1).1.x =
        clampedCenterX width (Int.fdiv width 2) (min s0 s1) := by
      simp only [splitCrops, clampedCenterX, if_pos hlt, hmin]
    have hx2 : (splitCrops width height s0 s1).2.x =
        clampedCenterX width (Int.fdiv width 2) (max s0 s1) := by
      simp only [splitCrops, clampedCenterX, if_pos hlt, hmax]
    refine ⟨⟨rfl, rfl, rfl, rfl⟩, ⟨hx1, hx2⟩, ?_, ?_, ?_, ?_⟩
    · rw [hx1]; exact hxl.1
    · rw [hx1]; exact hxl.2
    · rw [hx2]; exact hxr.1
    · rw [hx2]; exact hxr.2
  · have hnlt : ¬ s0 < s1 := not_lt.mpr hle
    have hmin : min s0 s1 = s1 := min_eq_right hle
    have hmax : max s0 s1 = s0 := max_eq_left hle
    have hx1 : (splitCrops width height s0 s1).1.x =
        clampedCenterX width (Int.fdiv width 2) (min s0 s1) := by
      simp only [splitCrops, clampedCenterX, if_neg hnlt, hmin]
    have hx2 : (splitCrops width height s0 s1).2.x =
        clampedCenterX width (Int.fdiv width 2) (max s0 s1) := by
      simp only [splitCrops, clampedCenterX, if_neg hnlt, hmax]
    refine ⟨⟨rfl, rfl, rfl, rfl⟩, ⟨hx1, hx2⟩, ?_, ?_, ?_, ?_⟩
    · rw [hx1]; exact hxl.1
    · rw [hx1]; exact hxl.2
    · rw [hx2]; exact hxr.1
    · rw [hx2]; exact hxr.2

theorem split_crop_geometry_witness :
    ((0 : ℤ) ≤ 1920) ∧
    (((splitCrops 1920 1080 (4/5) (1/5)).1.w = Int.fdiv 1920 2 ∧
      (splitCrops 1920 1080 (4/5) (1/5)).1.h = 1080 ∧
      (splitCrops 1920 1080 (4/5) (1/5)).2.w = Int.fdiv 1920 2 ∧
      (splitCrops 1920 1080 (4/5) (1/5)).2.h = 1080) ∧
    ((splitCrops 1920 1080 (4/5) (1/5)).1.x =
        clampedCenterX 1920 (Int.fdiv 1920 2) (min (4/5 : ℚ) (1/5)) ∧
      (splitCrops 1920 1080 (4/5) (1/5)).2.x =
        clampedCenterX 1920 (Int.fdiv 1920 2) (max (4/5 : ℚ) (1/5))) ∧
    (0 ≤ (splitCrops 1920 1080 (4/5) (1/5)).1.x ∧
      (splitCrops 1920 1080 (4/5) (1/5)).1.x ≤ 1920 - Int.fdiv 1920 2 ∧
      0 ≤ (splitCrops 1920 1080 (4/5) (1/5)).2.x ∧
      (splitCrops 1920 1080 (4/5) (1/5)).2.x ≤ 1920 - Int.fdiv 1920 2)) :=
  ⟨by norm_num, split_crop_geometry 1920 1080 (4/5) (1/5) (by norm_num)⟩

/-- One caption style preset from `SubtitleGenerator.STYLES`.  The
Python style dicts have optional keys read back with `.get` defaults in
`_generate_ass`; here every field is stored explicitly, with those
defaults filled in for keys a preset omits. -/
structure CaptionStyle where
  font : String
  size : Nat
  primary : Nat × Nat × Nat
  highlight : Nat × Nat × Nat
  border : Nat
  shadow : Nat
  shadow_color : Nat × Nat × Nat
  shadow_alpha : Nat
  scale_normal : Nat
  scale_highlight : Nat
  italic : Bool
  animation_type : String
  blur_edge : Bool
  spacing : Nat
  lowercase : Bool
  words_per_display : Nat
  center_vertical : Bool
deriving DecidableEq, Repr

/-- The `chris_cinematic` preset (also the fallback style of
`SubtitleGenerator.__init__`).  Omitted keys take the `_generate_ass`
defaults: `blur_edge` false, `spacing` 4, `lowercase` false,
`words_per_display` 5, `center_vertical` false. -/
def chris_cinematic : CaptionStyle :=
  ⟨"Montserrat Black", 105, (255, 255, 255), (0, 255, 90), 8, 4,
    (20, 20, 20), 200, 90, 120, false, "scale_color", false, 4, false, 5, false⟩

/-- The `SubtitleGenerator.STYLES` table, in source order. -/
def STYLES : List (String × CaptionStyle) :=
  [("chris_cinematic", chris_cinematic),
   ("clean_pop",
    ⟨"Outfit", 95, (255, 255, 255), (255, 255, 255), 0, 8,
      (0, 0, 0), 80, 100, 115, true, "pop_in", true, 2, false, 5, false⟩),
   ("minimal_lowercase",
    ⟨"Inter", 85, (255, 255, 255), (255, 255, 255), 0, 4,
      (0, 0, 0), 120, 100, 100, false, "fade_in", false, 1, true, 5, false⟩),
   ("bold_emphasis",
    ⟨"Bebas Neue", 110, (255, 255, 255), (255, 50, 50), 6, 5,
      (30, 30, 30), 180, 100, 108, false, "punch_return", false, 3, false, 5, false⟩),
   ("karaoke_snap",
    ⟨"Poppins", 130, (255, 255, 255), (255, 255, 255), 0, 5,
      (0, 0, 0), 100, 100, 100, false, "snap_in", false, 4, false, 1, true⟩),
   ("warm_italic",
    ⟨"Montserrat", 100, (255, 255, 255), (0, 230, 120), 0, 6,
      (30, 30, 30), 120, 95, 105, true, "glow_highlight", false, 2, false, 5, false⟩)]

/-- The animation-type tags that select a dedicated encoder branch in
`_generate_ass` (everything else falls to the plain-text default). -/
def handledAnimationTypes : List String :=
  ["pop_in", "scale_color", "fade_in", "punch_highlight", "punch_return",
   "snap_in", "glow_highlight"]

/-- The casing rule applied to each word's text in `_generate_ass`:
`word['text'].strip()` for lowercase styles, `word['text'].upper()`
otherwise.  Total in both arguments. -/
def applyCasing (s : CaptionStyle) (t : String) : String :=
  if s.lowercase then t.trim else t.toUpper

/-- Style selection from `SubtitleGenerator.__init__`:
`STYLES.get(style_name, STYLES['chris_cinematic'])`. -/
def styleFor (style_name : String) : CaptionStyle :=
  (STYLES.lookup style_name).getD chris_cinematic

/-- One transcribed word (`{'text', 'start', 'end'}` dicts in the
source; `end` is a Lean keyword, hence `endTime`). -/
structure Word where
  text : String
  start : ℚ
  endTime : ℚ
deriving DecidableEq, Repr

/-- One timed caption chunk (`display_words` with its resolved
`chunk_start`/`chunk_end` in `SubtitleGenerator._generate_ass`). -/
structure CaptionChunk where
  words : List Word
  display_start : ℚ
  display_end : ℚ
deriving DecidableEq, Repr

/-- The grouping `words[i:i+words_per_display]` for
`i in range(0, len(words), words_per_display)` (faithful for
`words_per_display ≥ 1`; at `0` Python raises instead). -/
def chunksOf {α : Type} (wpd : Nat) : List α → List (List α)
  | [] => []
  | w :: ws => (w :: ws.take (wpd - 1)) :: chunksOf wpd (ws.drop (wpd - 1))
termination_by l => l.length
decreasing_by simp only [List.length_drop, List.length_cons]; omega

/-- Chunk timing from `_generate_ass` lines 378-393: given the chunk's
words and the first word of the following chunk (if any), resolve
`display_start`/`display_end`, including the single-word zero-gap rule,
the multi-word trailing pad, the last-chunk `+0.25` pad, and the
multi-word `0.5`-second minimum-duration rule. -/
def mkChunk (wpd : Nat) (c : List Word) (next : Option Word) : CaptionChunk :=
  let chunk_start := ((c.head?).map Word.start).getD 0
  let last_end := ((c.getLast?).map Word.endTime).getD 0
  let chunk_end :=
    match next with
    | some nw => if wpd = 1 then nw.start else min (last_end + 1/10) (nw.start - 1/20)
    | none => last_end + 1/4
  let chunk_end :=
    if 1 < wpd ∧ chunk_end - chunk_start < 1/2 then chunk_start + 1/2 else chunk_end
  ⟨c, chunk_start, chunk_end⟩

/-- The first word of the leading chunk, used as the `next_start`
lookahead of the chunk before it. -/
def nextOf : List (List Word) → Option Word
  | [] => none
  | c :: _ => c.head?

/-- Resolve timing for every chunk in order, each one seeing the first
word of its successor. -/
def timeChunks (wpd : Nat) : List (List Word) → List CaptionChunk
  | [] => []
  | [c] => [mkChunk wpd c none]
  | c :: c' :: cs => mkChunk wpd c c'.head? :: timeChunks wpd (c' :: cs)

/-- The caption timeline of `_generate_ass`: group the transcript into
runs of `words_per_display` words and resolve each chunk's display
interval. -/
def buildTimeline (wpd : Nat) (ws : List Word) : List CaptionChunk :=
  timeChunks wpd (chunksOf wpd ws)

/-- Start of a chunk's first word. -/
def chunkFirstStart (c : CaptionChunk) : ℚ :=
  ((c.words.head?).map Word.start).getD 0

/-- End of a chunk's last word. -/
def chunkLastEnd (c : CaptionChunk) : ℚ :=
  ((c.words.getLast?).map Word.endTime).getD 0

theorem chunksOf_join {α : Type} (wpd : Nat) :
    (ws : List α) → (chunksOf wpd ws).flatten = ws
  | [] => by simp [chunksOf]
  | w :: ws => by
    rw [chunksOf]
    simp only [List.flatten_cons]
    rw [chunksOf_join wpd (ws.drop (wpd - 1))]
    simp [List.cons_append, List.take_append_drop]
termination_by ws => ws.length
decreasing_by simp only [List.length_drop, List.length_cons]; omega

theorem timeChunks_words (wpd : Nat) :
    (cs : List (List Word)) → (timeChunks wpd cs).map CaptionChunk.words = cs
  | [] => by simp [timeChunks]
  | [c] => by simp [timeChunks, mkChunk]
  | c :: c' :: cs => by
    rw [timeChunks]
    simp only [List.map_cons]
    rw [timeChunks_words wpd (c' :: cs)]
    simp [mkChunk]

/-- C6: for every caption style in the table, concatenating the word
runs of the produced caption chunks reproduces the input word sequence
exactly, in order. -/
theorem chunk_coverage (p : String × CaptionStyle) (hp : p ∈ STYLES)
    (ws : List Word) :
    ((buildTimeline p.2.words_per_display ws).map CaptionChunk.words).flatten = ws := by
  rw [buildTimeline, timeChunks_words, chunksOf_join]

theorem chunksOf_one {α : Type} : (ws : List α) → chunksOf 1 ws = ws.map (fun w => [w])
  | [] => by simp [chunksOf]
  | w :: ws => by
    rw [chunksOf]
    simp only [Nat.sub_self, List.take_zero, List.drop_zero, List.map_cons]
    rw [chunksOf_one ws]

theorem chunksOf_ne_nil {α : Type} (wpd : Nat) :
    (ws : List α) → ∀ c ∈ chunksOf wpd ws, c ≠ []
  | [] => by simp [chunksOf]
  | w :: ws => by
    rw [chunksOf]
    intro c hc
    rcases List.mem_cons.mp hc with h | h
    · subst h; simp
    · exact chunksOf_ne_nil wpd (ws.drop (wpd - 1)) c h
termination_by ws => ws.length
decreasing_by simp only [List.length_drop, List.length_cons]; omega

theorem timeChunks_head? (wpd : Nat) (c : List Word) (cs : List (List Word)) :
    (timeChunks wpd (c :: cs)).head? = some (mkChunk wpd c (nextOf cs)) := by
  cases cs <;> simp [timeChunks, nextOf]

theorem getLast?_cons_of_ne_nil {α : Type} (a : α) (l : List α) (h : l ≠ []) :
    (a :: l).getLast? = l.getLast? := by
  cases l with
  | nil => exact absurd rfl h
  | cons b m => simp [List.getLast?_cons_cons]

theorem mkChunk_one_some (w w' : Word) :
    mkChunk 1 [w] (some w') = ⟨[w], w.start, w'.start⟩ := by
  simp [mkChunk]

theorem mkChunk_one_none (w : Word) :
    mkChunk 1 [w] none = ⟨[w], w.start, w.endTime + 1/4⟩ := by
  simp [mkChunk]

theorem buildTimeline_one_cons (w w' : Word) (rest : List Word) :
    buildTimeline 1 (w :: w' :: rest) =
      mkChunk 1 [w] (some w') :: buildTimeline 1 (w' :: rest) := by
  simp only [buildTimeline, chunksOf_one, List.map_cons]
  rw [timeChunks]
  simp

theorem buildTimeline_one_head (w : Word) (rest : List Word) :
    (buildTimeline 1 (w :: rest)).head? = some (mkChunk 1 [w] rest.head?) := by
  cases rest with
  | nil => simp [buildTimeline, chunksOf_one, timeChunks]
  | cons w' r =>
    rw [buildTimeline_one_cons]
    simp

theorem chunk_coverage_witness :
    (("chris_cinematic", chris_cinematic) ∈ STYLES) ∧
    ((buildTimeline ("chris_cinematic", chris_cinematic).2.words_per_display
        [⟨"hi", 0, 3/10⟩, ⟨"there", 3/10, 3/5⟩]).map CaptionChunk.words).flatten =
      [⟨"hi", 0, 3/10⟩, ⟨"there", 3/10, 3/5⟩] :=
  ⟨List.mem_cons_self _ _,
    chunk_coverage ("chris_cinematic", chris_cinematic) (List.mem_cons_self _ _)
      [⟨"hi", 0, 3/10⟩, ⟨"there", 3/10, 3/5⟩]⟩

/-- C5: with a single-word style (`words_per_display = 1`) every chunk
holds exactly one word; each chunk but the last ends exactly when the
next word starts (zero gap, no overlap), and the last chunk ends `0.25`
seconds after its word; the displayed values show the `0.5`-second
minimum-duration rule never fires for single-word chunks. -/
theorem single_word_timeline (ws : List Word) :
    (buildTimeline 1 ws).map CaptionChunk.words = ws.map (fun w => [w]) ∧
      List.Chain' (fun a b => a.display_end = chunkFirstStart b)
        (buildTimeline 1 ws) ∧
      ∀ c, (buildTimeline 1 ws).getLast? = some c →
        c.display_end = chunkLastEnd c + 1/4 := by
  refine ⟨?_, ?_, ?_⟩
  · rw [buildTimeline, timeChunks_words, chunksOf_one]
  · induction ws with
    | nil => simp [buildTimeline, chunksOf_one, timeChunks]
    | cons w rest ih =>
      cases rest with
      | nil => simp [buildTimeline, chunksOf_one, timeChunks]
      | cons w' r =>
        rw [buildTimeline_one_cons, List.chain'_cons']
        refine ⟨?_, ih⟩
        intro y hy
        rw [buildTimeline_one_head, Option.mem_def, Option.some_inj] at hy
        subst hy
        simp [mkChunk_one_some, chunkFirstStart, mkChunk]
  · induction ws with
    | nil =>
      intro c hc
      simp [buildTimeline, chunksOf_one, timeChunks] at hc
    | cons w rest ih =>
      cases rest with
      | nil =>
        intro c hc
        simp only [buildTimeline, chunksOf_one, List.map_cons, List.map_nil,
          timeChunks, List.getLast?_singleton, Option.some_inj] at hc
        subst hc
        simp [mkChunk_one_none, chunkLastEnd]
      | cons w' r =>
        intro c hc
        rw [buildTimeline_one_cons] at hc
        have hne : buildTimeline 1 (w' :: r) ≠ [] := by
          intro h
          have hh := buildTimeline_one_head w' r
          rw [h] at hh
          simp at hh
        rw [getLast?_cons_of_ne_nil _ _ hne] at hc
        exact ih c hc

theorem single_word_timeline_witness :
    (buildTimeline 1 [⟨"hi", 0, 3/10⟩, ⟨"there", 3/10, 3/5⟩]).map CaptionChunk.words =
        ([⟨"hi", 0, 3/10⟩, ⟨"there", 3/10, 3/5⟩] : List Word).map (fun w => [w]) ∧
      List.Chain' (fun a b => a.display_end = chunkFirstStart b)
        (buildTimeline 1 [⟨"hi", 0, 3/10⟩, ⟨"there", 3/10, 3/5⟩]) ∧
      ∀ c, (buildTimeline 1 [⟨"hi", 0, 3/10⟩, ⟨"there", 3/10, 3/5⟩]).getLast? = some c →
        c.display_end = chunkLastEnd c + 1/4 :=
  single_word_timeline [⟨"hi", 0, 3/10⟩, ⟨"there", 3/10, 3/5⟩]

theorem mkChunk_min_duration (wpd : Nat) (h2 : 1 < wpd)
    (c : List Word) (next : Option Word) :
    1/2 ≤ (mkChunk wpd c next).display_end - (mkChunk wpd c next).display_start := by
  have hne : wpd ≠ 1 := by omega
  cases next with
  | none =>
    simp only [mkChunk]
    split_ifs with h
    · linarith
    · have h3 := not_lt.mp (not_and.mp h h2)
      linarith
  | some nw =>
    simp only [mkChunk, if_neg hne]
    split_ifs with h
    · linarith
    · have h3 := not_lt.mp (not_and.mp h h2)
      linarith

theorem timeChunks_min_duration (wpd : Nat) (h2 : 1 < wpd) :
    (cs : List (List Word)) → ∀ x ∈ timeChunks wpd cs,
      1/2 ≤ x.display_end - x.display_start
  | [] => by simp [timeChunks]
  | [c] => by
    intro x hx
    simp only [timeChunks, List.mem_singleton] at hx
    subst hx
    exact mkChunk_min_duration wpd h2 c none
  | c :: c' :: cs => by
    intro x hx
    rw [timeChunks] at hx
    rcases List.mem_cons.mp hx with h | h
    · subst h
      exact mkChunk_min_duration wpd h2 c _
    · exact timeChunks_min_duration wpd h2 (c' :: cs) x h

/-- C7: with a multi-word style (`words_per_display > 1`) every chunk is
displayed for at least `0.5` seconds. -/
theorem multi_word_min_duration (wpd : Nat) (h2 : 1 < wpd) (ws : List Word) :
    ∀ c ∈ buildTimeline wpd ws, 1/2 ≤ c.display_end - c.display_start := by
  intro c hc
  exact timeChunks_min_duration wpd h2 (chunksOf wpd ws) c hc

theorem multi_word_min_duration_witness :
    1 < 5 ∧ ∀ c ∈ buildTimeline 5 [⟨"hi", 0, 3/10⟩],
      1/2 ≤ c.display_end - c.display_start :=
  ⟨by norm_num, multi_word_min_duration 5 (by norm_num) [⟨"hi", 0, 3/10⟩]⟩

theorem mkChunk_display_end_some (wpd : Nat) (h2 : 1 < wpd)
    (c : List Word) (nw : Word) :
    (mkChunk wpd c (some nw)).display_end =
      max (min ((((c.getLast?).map Word.endTime).getD 0) + 1/10) (nw.start - 1/20))
        ((((c.head?).map Word.start).getD 0) + 1/2) := by
  have hne : wpd ≠ 1 := by omega
  simp only [mkChunk, if_neg hne]
  split_ifs with h
  · have h3 := h.2
    rw [max_eq_right (by linarith)]
  · have h3 := not_lt.mp (not_and.mp h h2)
    rw [max_eq_left (by linarith)]

theorem timeChunks_pad_chain (wpd : Nat) (h2 : 1 < wpd) :
    (cs : List (List Word)) → (∀ c ∈ cs, c ≠ []) →
      List.Chain' (fun a b =>
        a.display_end =
          max (min (chunkLastEnd a + 1/10) (chunkFirstStart b - 1/20))
            (a.display_start + 1/2)) (timeChunks wpd cs)
  | [] => by
    intro _
    simp [timeChunks]
  | [c] => by
    intro _
    simp [timeChunks]
  | c :: c' :: cs => by
    intro hne
    rw [timeChunks, List.chain'_cons']
    refine ⟨?_, timeChunks_pad_chain wpd h2 (c' :: cs)
      (fun x hx => hne x (List.mem_cons_of_mem _ hx))⟩
    intro y hy
    rw [timeChunks_head?, Option.mem_def, Option.some_inj] at hy
    subst hy
    have hc' : c' ≠ [] := hne c' (by simp)
    obtain ⟨w', t, rfl⟩ : ∃ w' t, c' = w' :: t := by
      cases c' with
      | nil => exact absurd rfl hc'
      | cons a t => exact ⟨a, t, rfl⟩
    simp only [List.head?_cons]
    rw [mkChunk_display_end_some wpd h2 c w']
    simp [mkChunk, chunkFirstStart, chunkLastEnd]

/-- C8 (amended): with a multi-word style, a chunk followed by another
chunk has `display_end = max(min(last_word.end + 0.1,
next_chunk_first_word.start - 0.05), display_start + 0.5)`: the
`0.5`-second minimum-duration rule is applied after the trailing-pad
formula and can push `display_end` past the next chunk's start, so
adjacent chunks are not always time-disjoint. -/
theorem multi_word_pad_amended (wpd : Nat) (h2 : 1 < wpd) (ws : List Word) :
    List.Chain' (fun a b =>
      a.display_end =
        max (min (chunkLastEnd a + 1/10) (chunkFirstStart b - 1/20))
          (a.display_start + 1/2)) (buildTimeline wpd ws) :=
  timeChunks_pad_chain wpd h2 (chunksOf wpd ws) (chunksOf_ne_nil wpd ws)

theorem multi_word_pad_amended_witness :
    1 < 5 ∧ List.Chain' (fun a b =>
      a.display_end =
        max (min (chunkLastEnd a + 1/10) (chunkFirstStart b - 1/20))
          (a.display_start + 1/2))
      (buildTimeline 5 [⟨"hi", 0, 3/10⟩, ⟨"there", 3/10, 3/5⟩]) :=
  ⟨by norm_num,
    multi_word_pad_amended 5 (by norm_num) [⟨"hi", 0, 3/10⟩, ⟨"there", 3/10, 3/5⟩]⟩

/-- A six-word transcript on which the claimed trailing-pad formula
fails: the first multi-word chunk is short, so the minimum-duration rule
overrides the pad and crosses into the second chunk. -/
def exWords : List Word :=
  [⟨"a", 0, 1/50⟩, ⟨"b", 1/50, 1/25⟩, ⟨"c", 1/25, 3/50⟩, ⟨"d", 3/50, 2/25⟩,
   ⟨"e", 2/25, 1/10⟩, ⟨"f", 1/5, 3/10⟩]

/-- C8 counterexample: on `exWords` with `words_per_display = 5` the
first chunk's `display_end` is `0.5`, not the claimed
`min(0.1 + 0.1, 0.2 - 0.05) = 0.15`, and it crosses the second chunk's
`display_start = 0.2`, so the chunks are not time-disjoint. -/
theorem multi_word_pad_counterexample :
    (buildTimeline 5 exWords).map
        (fun c => (c.display_start, c.display_end)) = [(0, 1/2), (1/5, 7/10)] ∧
      ¬ ((1 : ℚ)/2 = min ((1:ℚ)/10 + 1/10) ((1:ℚ)/5 - 1/20)) ∧
      ¬ ((1 : ℚ)/2 ≤ (1:ℚ)/5) := by
  refine ⟨?_, by norm_num [min_def], by norm_num⟩
  norm_num [buildTimeline, exWords, chunksOf, timeChunks, mkChunk, min_def]

/-- C9 counterexample: the style table does not have seven presets — it
has six (`chris_cinematic`, `clean_pop`, `minimal_lowercase`,
`bold_emphasis`, `karaoke_snap`, `warm_italic`). -/
theorem style_table_not_seven : ¬ (STYLES.length = 7) := by
  simp [STYLES]

/-- C9 (amended): the caption style table is a fixed set of exactly six
named presets, and each preset's animation-type tag selects one of the
dedicated encoder branches of `_generate_ass` (the casing rule
`applyCasing` is total by construction). -/
theorem style_table_six_presets :
    STYLES.length = 6 ∧
      (STYLES.all fun p => handledAnimationTypes.contains p.2.animation_type) = true := by
  constructor
  · rfl
  · rfl

/-- C10: constructing the subtitle generator with a style name absent
from the table silently falls back to the `chris_cinematic` preset, so
style selection is total in the style-name argument. -/
theorem unknown_style_fallback (style_name : String)
    (h : STYLES.lookup style_name = none) :
    styleFor style_name = chris_cinematic := by
  simp [styleFor, h]

theorem unknown_style_fallback_witness :
    STYLES.lookup "no_such_style" = none ∧
      styleFor "no_such_style" = chris_cinematic :=
  ⟨by rfl, unknown_style_fallback "no_such_style" (by rfl)⟩
